import Mathlib

/-!
Verification of the symbolic register-access layer of `ctp7_modules`
(`src/include/utils.h`): string splitting, register-record serialization,
mask application/insertion, name-based register read/write with error
reporting, and the TTC-generation rate calculation.

Functions whose bodies live in the header (`split`, `serialize`,
`ParamTTCGen::calcRate`) are embedded from the source; functions the header
only declares (`applyMask`, `getNumNonzeroBits`, `readReg`, `writeReg`,
`getAddress`) are modelled from the specification, as marked on each
definition.
-/

set_option maxRecDepth 8192

/-- One item-extraction loop of the C++ `split` template, i.e. repeated
`std::getline(ss, item, delim)`: `acc` holds the characters of the current
item in reverse order; at end of input the pending item is emitted; at a
delimiter the pending item is emitted and reading continues only if input
characters remain, so a trailing delimiter yields no further (empty) item,
exactly as `std::getline` reports failure at end-of-stream. -/
def splitAux (delim : Char) (acc : List Char) : List Char → List String
  | [] => [acc.reverse.asString]
  | c :: cs =>
    if c = delim then
      acc.reverse.asString :: (if cs.isEmpty then [] else splitAux delim [] cs)
    else
      splitAux delim (c :: acc) cs

/-- The C++ `split(const std::string &s, char delim)` of `utils.h`: collects
the `std::getline` items into a vector; an empty input stream yields an empty
vector because the very first `getline` already fails. -/
def split (s : String) (delim : Char) : List String :=
  if s.data.isEmpty then [] else splitAux delim [] s.data

/-- Decimal digit characters of a natural number, most significant first,
mirroring `std::to_string` on an unsigned value; the fuel argument bounds the
number of digits (32 is ample for a 32-bit value). -/
def decDigitsAux : Nat → Nat → List Char
  | 0, _ => []
  | fuel + 1, n =>
    if n < 10 then [Nat.digitChar n]
    else decDigitsAux fuel (n / 10) ++ [Nat.digitChar (n % 10)]

/-- Model of `std::to_string` on a `uint32_t`-ranged natural number. -/
def toDecString (n : Nat) : String :=
  (decDigitsAux 32 n).asString

/-- The fields of `xhal::utils::Node` that `serialize` reads: the register's
real (bus) address, its permission token and its bit mask. Addresses and
masks are 32-bit values, phrased as naturals reduced mod `2^32` at use. -/
structure Node where
  real_address : Nat
  permission : String
  mask : Nat

/-- The C++ `serialize(xhal::utils::Node n)` of `utils.h`:
`std::to_string((uint32_t)n.real_address) + "|" + n.permission + "|" +
std::to_string((uint32_t)n.mask)`; the casts are the reductions mod `2^32`. -/
def serialize (n : Node) : String :=
  toDecString (n.real_address % 2 ^ 32) ++ "|" ++ n.permission ++ "|" ++
    toDecString (n.mask % 2 ^ 32)

/-- The fields of `struct ParamTTCGen` of `utils.h` (all `uint32_t` fields
kept as naturals below `2^32`; `enable` is the C++ `bool`). -/
structure ParamTTCGen where
  enable : Bool
  interval : Nat
  mode : Nat
  nPulses : Nat
  delay : Nat
  pulseRate : Nat
  type : Nat

/-- The C++ `ParamTTCGen::calcRate()` of `utils.h`: if `interval > 0` set
`pulseRate = 40079000 / interval`, otherwise set `pulseRate = 0`; return the
new `pulseRate`. Both operands are `uint32_t`, so C++ unsigned division is
natural-number division and the quotient of `40079000` by a positive value
never exceeds `2^32`. The result pairs the updated struct with the returned
value. -/
def calcRate (p : ParamTTCGen) : ParamTTCGen × Nat :=
  if p.interval > 0 then
    ({ p with pulseRate := 40079000 / p.interval }, 40079000 / p.interval)
  else
    ({ p with pulseRate := 0 }, 0)

/-- Modelled from the spec: `getNumNonzeroBits` is only declared in
`utils.h` (its body is not part of the sources); the spec states it "counts
the set bits in a 32-bit word". Fuelled loop over the 32 bits. -/
def popcountAux : Nat → Nat → Nat
  | 0, _ => 0
  | fuel + 1, n => n % 2 + popcountAux fuel (n / 2)

/-- Modelled from the spec: the set-bit count of the 32-bit argument. -/
def getNumNonzeroBits (value : Nat) : Nat :=
  popcountAux 32 (value % 2 ^ 32)

/-- Position of the least-significant set bit of a 32-bit word, found by the
shift-until-odd loop the spec describes for mask alignment; the fuel bounds
the loop at the 32 bit positions. Used by the mask application/insertion
models below. -/
def lowestBitAux : Nat → Nat → Nat
  | 0, _ => 0
  | fuel + 1, n => if n % 2 = 1 then 0 else 1 + lowestBitAux fuel (n / 2)

/-- Position of the least-significant set bit of a 32-bit word (0 on 0). -/
def lowestBit (n : Nat) : Nat :=
  lowestBitAux 32 (n % 2 ^ 32)

/-- Modelled from the spec: `applyMask` is only declared in `utils.h`; the
spec states it "extracts only the bits set in `mask` and right-justifies
them: given a mask whose lowest set bit is at position `p`, the result is
`(word & mask) >> p`", realised as the loop that shifts the masked word
right while the mask's low bit is clear. -/
def applyMaskAux : Nat → Nat → Nat → Nat
  | 0, result, _ => result
  | fuel + 1, result, mask =>
    if mask % 2 = 1 then result else applyMaskAux fuel (result / 2) (mask / 2)

/-- Modelled from the spec: extract the bits of `data` selected by `mask`
and right-justify them by the mask's lowest set-bit position. -/
def applyMask (data mask : Nat) : Nat :=
  applyMaskAux 32 (data % 2 ^ 32 &&& mask % 2 ^ 32) (mask % 2 ^ 32)

/-- Bitwise complement of a mask within a 32-bit word (`~mask` on
`uint32_t`). -/
def maskNot (mask : Nat) : Nat :=
  mask % 2 ^ 32 ^^^ (2 ^ 32 - 1)

/-- Modelled from the spec: the write-insertion half of `writeReg` (whose
body is not part of the sources): "fetch the current raw word, clear the
bits selected by `mask`, shift the incoming logical value left by the mask's
lowest set-bit position, OR it in"; the inserted bits are confined to the
mask, which is what makes values wider than the mask silently truncate
instead of spilling into neighbouring fields. -/
def insertMask (word mask value : Nat) : Nat :=
  (word % 2 ^ 32 &&& maskNot mask) ||| (value <<< lowestBit mask &&& mask % 2 ^ 32)

/-- A character list is recovered from the string it underlies. -/
theorem asString_data (s : String) : s.data.asString = s := rfl

/-- One-step unfolding of `splitAux` on empty input. -/
theorem splitAux_nil (d : Char) (acc : List Char) :
    splitAux d acc [] = [acc.reverse.asString] := rfl

/-- One-step unfolding of `splitAux` on a first character. -/
theorem splitAux_cons (d : Char) (acc : List Char) (c : Char) (cs : List Char) :
    splitAux d acc (c :: cs) =
      if c = d then
        acc.reverse.asString :: (if cs.isEmpty then [] else splitAux d [] cs)
      else
        splitAux d (c :: acc) cs := rfl

/-- Splitting a delimiter-free character list yields exactly one item: the
pending characters followed by the whole list. -/
theorem splitAux_no_delim (d : Char) (cs : List Char) :
    ∀ acc, (∀ c ∈ cs, c ≠ d) → splitAux d acc cs = [(acc.reverse ++ cs).asString] := by
  induction cs with
  | nil => intro acc _; simp [splitAux_nil]
  | cons c cs ih =>
    intro acc h
    have hc : c ≠ d := h c (List.mem_cons_self c cs)
    rw [splitAux_cons, if_neg hc, ih (c :: acc) (fun x hx => h x (List.mem_cons_of_mem c hx))]
    simp

/-- Splitting past a delimiter that is followed by more input emits the
pending item and continues on the remainder. -/
theorem splitAux_mid (d : Char) (cs : List Char) :
    ∀ acc cs2, (∀ c ∈ cs, c ≠ d) → cs2 ≠ [] →
      splitAux d acc (cs ++ d :: cs2) =
        (acc.reverse ++ cs).asString :: splitAux d [] cs2 := by
  induction cs with
  | nil =>
    intro acc cs2 _ h2
    cases cs2 with
    | nil => exact absurd rfl h2
    | cons x xs => rw [List.nil_append, splitAux_cons, if_pos rfl]; simp
  | cons c cs ih =>
    intro acc cs2 h h2
    have hc : c ≠ d := h c (List.mem_cons_self c cs)
    rw [List.cons_append, splitAux_cons, if_neg hc,
      ih (c :: acc) cs2 (fun x hx => h x (List.mem_cons_of_mem c hx)) h2]
    simp

/-- A single trailing delimiter is dropped by the splitting loop: `getline`
fails at end-of-stream before producing the empty final item. -/
theorem splitAux_append_delim (d : Char) (cs : List Char) :
    ∀ acc, cs ≠ [] → cs.getLast? ≠ some d →
      splitAux d acc (cs ++ [d]) = splitAux d acc cs := by
  induction cs with
  | nil => intro acc h _; exact absurd rfl h
  | cons c cs ih =>
    intro acc _ hlast
    cases cs with
    | nil =>
      have hc : c ≠ d := by simpa using hlast
      rw [List.cons_append, List.nil_append, splitAux_cons, if_neg hc, splitAux_cons,
        if_pos rfl, splitAux_nil, splitAux_no_delim d [c] acc (by simp [hc])]
      simp
    | cons c2 cs2 =>
      have hlast2 : (c2 :: cs2).getLast? ≠ some d := by
        simpa [List.getLast?_cons_cons] using hlast
      by_cases hc : c = d
      · rw [show ((c :: c2 :: cs2) ++ [d]) = c :: ((c2 :: cs2) ++ [d]) from rfl,
          splitAux_cons, splitAux_cons, if_pos hc, if_pos hc,
          ih [] (by simp) hlast2]
        simp
      · rw [show ((c :: c2 :: cs2) ++ [d]) = c :: ((c2 :: cs2) ++ [d]) from rfl,
          splitAux_cons, if_neg hc, splitAux_cons, if_neg hc,
          ih (c :: acc) (by simp) hlast2]

/-- A string whose character list is empty is the empty string. -/
theorem data_eq_nil (s : String) (h : s.data = []) : s = "" := by
  cases s with
  | mk l => cases h; rfl

/-- Decimal digit characters are never the pipe delimiter. -/
theorem digitChar_ne_pipe (m : Nat) (h : m < 10) : Nat.digitChar m ≠ '|' := by
  interval_cases m <;> decide

/-- No character of a decimal rendering is the pipe delimiter. -/
theorem decDigitsAux_ne_pipe (fuel : Nat) :
    ∀ n, ∀ c ∈ decDigitsAux fuel n, c ≠ '|' := by
  induction fuel with
  | zero => intro n c hc; simp [decDigitsAux] at hc
  | succ f ih =>
    intro n c hc
    by_cases h : n < 10
    · simp only [decDigitsAux, if_pos h, List.mem_singleton] at hc
      exact hc ▸ digitChar_ne_pipe n h
    · simp only [decDigitsAux, if_neg h] at hc
      rcases List.mem_append.mp hc with h1 | h2
      · exact ih (n / 10) c h1
      · rw [List.mem_singleton] at h2
        exact h2 ▸ digitChar_ne_pipe (n % 10) (Nat.mod_lt n (by norm_num))

/-- A decimal rendering with positive fuel is never empty. -/
theorem decDigitsAux_ne_nil (f n : Nat) : decDigitsAux (f + 1) n ≠ [] := by
  by_cases h : n < 10 <;> simp [decDigitsAux, h]

/-- The RPC response object as the core uses it: only the fixed `"error"`
string key written through `set_string` by the error convention. `none`
means the key was never written. -/
structure RPCMsg where
  error : Option String

/-- The `response->set_string("error", message)` step of `EMIT_RPC_ERROR`. -/
def setError (resp : RPCMsg) (message : String) : RPCMsg :=
  { resp with error := some message }

/-- One word-level transfer issued to the memory-service handle; the log of
these is how the model states that a call performed no bus transfer. -/
inductive BusOp where
  | read (addr : Nat)
  | write (addr : Nat) (value : Nat)
deriving DecidableEq, Repr

/-- The memory service: the current word at each address, plus the set of
addresses at which a transfer faults (invalid address, bus error, device not
present). -/
structure Bus where
  mem : Nat → Nat
  fault : Nat → Bool

/-- The LMDB point lookup `dbi.get(rtxn, key, db_res)`: the register map as
an association list from names to stored record strings. -/
def dbGet (db : List (String × String)) (key : String) : Option String :=
  (db.find? (fun e => e.1 = key)).map (fun e => e.2)

/-- Decimal string-to-number conversion (`stoll` on the decimal address and
mask fields of a stored record). -/
def parseDec (s : String) : Nat :=
  s.data.foldl (fun acc c => acc * 10 + (c.toNat - 48)) 0

/-- Modelled from the spec: the Address Resolver lookup used by `readReg`,
`writeReg`, `getAddress` and `getMask`, whose bodies are not part of the
sources. It performs the point lookup, splits the stored record on the pipe
and requires exactly three fields `address|permission|mask`; a missing key
or a record with any other field count fails (`RegisterNotFound` /
`CorruptRecord`), reported as `none`. -/
def lookupReg (db : List (String × String)) (name : String) :
    Option (Nat × String × Nat) :=
  match dbGet db name with
  | none => none
  | some rec =>
    let fields := split rec '|'
    if fields.length = 3 then
      some (parseDec (fields.getD 0 "") % 2 ^ 32, fields.getD 1 "",
        parseDec (fields.getD 2 "") % 2 ^ 32)
    else
      none

/-- Modelled from the spec: `readReg` (declared in `utils.h`, body not part
of the sources). Resolve the name; on lookup failure write a non-empty
message to the `error` key and return the sentinel `0xdeaddead` without
touching the bus; otherwise read the raw word, and on a bus fault report the
error and the sentinel, else return `applyMask(word, mask)`. The result is
the returned value, the response, and the log of issued bus transfers. -/
def readReg (db : List (String × String)) (bus : Bus) (resp : RPCMsg)
    (name : String) : Nat × RPCMsg × List BusOp :=
  match lookupReg db name with
  | none => (0xdeaddead, setError resp "Register not found", [])
  | some (addr, _perm, mask) =>
    if bus.fault addr then
      (0xdeaddead, setError resp "read memory error", [BusOp.read addr])
    else
      (applyMask (bus.mem addr) mask, resp, [BusOp.read addr])

/-- Modelled from the spec: `writeReg` (declared in `utils.h`, body not part
of the sources). Resolve the name; on lookup failure write a non-empty
message to the `error` key and abort without touching the bus; otherwise
read-modify-write: fetch the raw word (aborting with an error on a bus
fault), insert the value through the mask, and write the combined word back.
The result is the final bus state, the response, and the log of issued bus
transfers; an aborted call leaves the bus unchanged. -/
def writeReg (db : List (String × String)) (bus : Bus) (resp : RPCMsg)
    (name : String) (value : Nat) : Bus × RPCMsg × List BusOp :=
  match lookupReg db name with
  | none => (bus, setError resp "Register not found", [])
  | some (addr, _perm, mask) =>
    if bus.fault addr then
      (bus, setError resp "read memory error", [BusOp.read addr])
    else
      let newWord := insertMask (bus.mem addr) mask value
      ({ bus with mem := fun a => if a = addr then newWord else bus.mem a },
        resp, [BusOp.read addr, BusOp.write addr newWord])

/-- A missing key or a record that does not split into exactly three fields
makes the resolver fail. -/
theorem lookupReg_none_of (db : List (String × String)) (name : String)
    (h : dbGet db name = none ∨
      ∃ r, dbGet db name = some r ∧ (split r '|').length ≠ 3) :
    lookupReg db name = none := by
  rcases h with h | ⟨r, hr, hl⟩
  · simp [lookupReg, h]
  · simp [lookupReg, hr, hl]

/-- The address and mask returned by the resolver are 32-bit values. -/
theorem lookupReg_bounds (db : List (String × String)) (name : String)
    (a : Nat) (p : String) (m : Nat) (h : lookupReg db name = some (a, p, m)) :
    a < 2 ^ 32 ∧ m < 2 ^ 32 := by
  cases hdb : dbGet db name with
  | none => rw [lookupReg, hdb] at h; simp at h
  | some r =>
    rw [lookupReg, hdb] at h
    simp only at h
    by_cases hl : (split r '|').length = 3
    · rw [if_pos hl] at h
      simp only [Option.some.injEq, Prod.mk.injEq] at h
      obtain ⟨h1, _h2, h3⟩ := h
      subst h1
      subst h3
      exact ⟨Nat.mod_lt _ (by norm_num), Nat.mod_lt _ (by norm_num)⟩
    · rw [if_neg hl] at h
      simp at h

/-- C6: `split` divides a string on the given delimiter character into the
delimited substrings, in order: `split("a|b|c", '|') == ["a","b","c"]`,
`split("", '|') == []` (the empty string yields an empty vector), and
`split("a", '|') == ["a"]` (a delimiter-free string yields one element equal
to the input). -/
theorem split_examples :
    split "a|b|c" '|' = ["a", "b", "c"] ∧ split "" '|' = [] ∧
      split "a" '|' = ["a"] :=
  ⟨by decide, by decide, by decide⟩

/-- C10: `split` drops a single trailing delimiter: for every non-empty
string `s` whose last character is not the delimiter `d`,
`split(s + d, d) = split(s, d)`; consequently a stored record of the form
`"<address>|<permission>|"` with an empty final mask field parses into only
two fields, not three with an empty third. -/
theorem split_trailing_delim (s : String) (d : Char) (h1 : s ≠ "")
    (h2 : s.data.getLast? ≠ some d) :
    split (s.push d) d = split s d ∧ split "100|rw|" '|' = ["100", "rw"] := by
  constructor
  · have hd : s.data ≠ [] := fun hnil => h1 (data_eq_nil s hnil)
    have e1 : ¬((s.data ++ [d]).isEmpty = true) := by simp
    have e2 : ¬(s.data.isEmpty = true) := by simpa using hd
    simp only [split, String.data_push]
    rw [if_neg e1, if_neg e2]
    exact splitAux_append_delim d s.data [] hd h2
  · decide

/-- Witness for `split_trailing_delim` at `s = "a"`, `d = '|'`. -/
theorem split_trailing_delim_witness :
    ("a" : String) ≠ "" ∧ ("a" : String).data.getLast? ≠ some '|' ∧
      (split (("a" : String).push '|') '|' = split "a" '|' ∧
        split "100|rw|" '|' = ["100", "rw"]) :=
  ⟨by decide, by decide, split_trailing_delim "a" '|' (by decide) (by decide)⟩

/-- C8: `serialize` produces a string of the exact form
`"<decimal-address>|<permission-token>|<decimal-mask>"` (address and mask
rendered in decimal), and whenever the permission token contains no pipe
character, splitting the serialized record on the pipe yields exactly the
three fields: decimal address, permission token, decimal mask. -/
theorem serialize_split_roundtrip (n : Node)
    (hp : ∀ c ∈ n.permission.data, c ≠ '|') :
    serialize n =
      toDecString (n.real_address % 2 ^ 32) ++ "|" ++ n.permission ++ "|" ++
        toDecString (n.mask % 2 ^ 32) ∧
    split (serialize n) '|' =
      [toDecString (n.real_address % 2 ^ 32), n.permission,
        toDecString (n.mask % 2 ^ 32)] := by
  refine ⟨rfl, ?_⟩
  have hA : ∀ c ∈ decDigitsAux 32 (n.real_address % 2 ^ 32), c ≠ '|' :=
    fun c hc => decDigitsAux_ne_pipe 32 _ c hc
  have hM : ∀ c ∈ decDigitsAux 32 (n.mask % 2 ^ 32), c ≠ '|' :=
    fun c hc => decDigitsAux_ne_pipe 32 _ c hc
  have hMne : decDigitsAux 32 (n.mask % 2 ^ 32) ≠ [] := decDigitsAux_ne_nil 31 _
  have hdata : (serialize n).data =
      decDigitsAux 32 (n.real_address % 2 ^ 32) ++ '|' ::
        (n.permission.data ++ '|' :: decDigitsAux 32 (n.mask % 2 ^ 32)) := by
    show decDigitsAux 32 (n.real_address % 2 ^ 32) ++ ['|'] ++ n.permission.data ++
        ['|'] ++ decDigitsAux 32 (n.mask % 2 ^ 32) = _
    simp [List.append_assoc]
  have hne : ¬((serialize n).data.isEmpty = true) := by
    rw [hdata]; simp
  rw [split, if_neg hne, hdata]
  rw [splitAux_mid '|' _ [] _ hA (by simp)]
  rw [splitAux_mid '|' _ [] _ hp hMne]
  rw [splitAux_no_delim '|' _ [] hM]
  simp [toDecString, asString_data]

/-- Witness for `serialize_split_roundtrip` on the record of the spec's
scenario. -/
theorem serialize_split_roundtrip_witness :
    (∀ c ∈ (Node.mk 1677721600 "rw" 240).permission.data, c ≠ '|') ∧
      (serialize (Node.mk 1677721600 "rw" 240) =
        toDecString (1677721600 % 2 ^ 32) ++ "|" ++ "rw" ++ "|" ++
          toDecString (240 % 2 ^ 32) ∧
      split (serialize (Node.mk 1677721600 "rw" 240)) '|' =
        [toDecString (1677721600 % 2 ^ 32), "rw", toDecString (240 % 2 ^ 32)]) :=
  ⟨by decide, serialize_split_roundtrip (Node.mk 1677721600 "rw" 240) (by decide)⟩

/-- The fuelled set-bit count adds up exactly the first `fuel` bits. -/
theorem popcountAux_countP (fuel : Nat) :
    ∀ v, popcountAux fuel v = (List.range fuel).countP (fun i => v.testBit i) := by
  induction fuel with
  | zero => intro v; simp [popcountAux]
  | succ f ih =>
    intro v
    rw [List.range_succ_eq_map, List.countP_cons, List.countP_map]
    have hcomp : ((fun i => v.testBit i) ∘ Nat.succ) = fun i => (v / 2).testBit i := by
      funext i
      simp [Function.comp, Nat.testBit_succ]
    rw [hcomp, ← ih (v / 2)]
    rcases Nat.mod_two_eq_zero_or_one v with h | h
    · simp [popcountAux, Nat.testBit_zero, h]
    · simp [popcountAux, Nat.testBit_zero, h]
      omega

/-- C7: `getNumNonzeroBits` computes the population count of its 32-bit
argument — the number of positions among the 32 bits at which the word has a
set bit — and is a pure function of that argument; in particular
`getNumNonzeroBits(0) == 0`, `getNumNonzeroBits(0xFFFFFFFF) == 32`, and
`getNumNonzeroBits(0x0F0F0F0F) == 16`. -/
theorem getNumNonzeroBits_popcount :
    (∀ v, getNumNonzeroBits v =
      (List.range 32).countP (fun i => (v % 2 ^ 32).testBit i)) ∧
    getNumNonzeroBits 0 = 0 ∧ getNumNonzeroBits 0xFFFFFFFF = 32 ∧
    getNumNonzeroBits 0x0F0F0F0F = 16 := by
  refine ⟨?_, by decide, by decide, by decide⟩
  intro v
  exact popcountAux_countP 32 (v % 2 ^ 32)

/-- C9: `calcRate` is total and its division is guarded: when `interval > 0`
it sets `pulseRate` to the integer quotient `40079000 / interval` and
returns it, and when `interval == 0` it sets `pulseRate` to `0` and returns
`0`, so the division is never reached with a zero divisor; the returned
value always equals the updated `pulseRate` field. -/
theorem calcRate_guarded (p : ParamTTCGen) :
    (calcRate p).2 = (if 0 < p.interval then 40079000 / p.interval else 0) ∧
    (calcRate p).1.pulseRate = (calcRate p).2 ∧
    (calcRate p).1.interval = p.interval := by
  by_cases h : 0 < p.interval <;> simp [calcRate, h]

/-- C4: lookup failure is terminal and side-effect free: when the name is
absent from the lookup store, or its stored value does not split into
exactly three fields, both `readReg` and `writeReg` write a non-empty
message into the response's fixed `error` key, issue no bus transfer at all
(neither read nor write), and leave the bus untouched. -/
theorem lookup_failure_no_bus (db : List (String × String)) (bus : Bus)
    (resp : RPCMsg) (name : String) (value : Nat)
    (h : dbGet db name = none ∨
      ∃ r, dbGet db name = some r ∧ (split r '|').length ≠ 3) :
    (∃ msg, (readReg db bus resp name).2.1.error = some msg ∧ msg ≠ "") ∧
    (readReg db bus resp name).2.2 = [] ∧
    (∃ msg, (writeReg db bus resp name value).2.1.error = some msg ∧ msg ≠ "") ∧
    (writeReg db bus resp name value).2.2 = [] ∧
    (writeReg db bus resp name value).1 = bus := by
  have hl := lookupReg_none_of db name h
  refine ⟨⟨"Register not found", ?_, by decide⟩, ?_,
    ⟨"Register not found", ?_, by decide⟩, ?_, ?_⟩ <;>
    simp [readReg, writeReg, hl, setError]

/-- Witness for `lookup_failure_no_bus` on an empty store. -/
theorem lookup_failure_no_bus_witness :
    (dbGet [] "GEM_AMC.MISSING" = none ∨
      ∃ r, dbGet [] "GEM_AMC.MISSING" = some r ∧ (split r '|').length ≠ 3) ∧
    ((∃ msg, (readReg [] (Bus.mk (fun _ => 0) (fun _ => false)) (RPCMsg.mk none)
        "GEM_AMC.MISSING").2.1.error = some msg ∧ msg ≠ "") ∧
    (readReg [] (Bus.mk (fun _ => 0) (fun _ => false)) (RPCMsg.mk none)
        "GEM_AMC.MISSING").2.2 = [] ∧
    (∃ msg, (writeReg [] (Bus.mk (fun _ => 0) (fun _ => false)) (RPCMsg.mk none)
        "GEM_AMC.MISSING" 7).2.1.error = some msg ∧ msg ≠ "") ∧
    (writeReg [] (Bus.mk (fun _ => 0) (fun _ => false)) (RPCMsg.mk none)
        "GEM_AMC.MISSING" 7).2.2 = [] ∧
    (writeReg [] (Bus.mk (fun _ => 0) (fun _ => false)) (RPCMsg.mk none)
        "GEM_AMC.MISSING" 7).1 = Bus.mk (fun _ => 0) (fun _ => false)) :=
  ⟨Or.inl rfl, lookup_failure_no_bus [] (Bus.mk (fun _ => 0) (fun _ => false))
    (RPCMsg.mk none) "GEM_AMC.MISSING" 7 (Or.inl rfl)⟩

/-- C5: whenever a register cannot be read (lookup failure or bus fault),
`readReg` returns exactly the sentinel `0xdeaddead` and the response's
`error` string is populated with a non-empty message; a failed `writeReg`
completes no write: it aborts with the error set, leaves the bus unchanged
and issues no write transfer. -/
theorem read_failure_sentinel (db : List (String × String)) (bus : Bus)
    (resp : RPCMsg) (name : String) (value : Nat)
    (h : lookupReg db name = none ∨
      ∃ a p m, lookupReg db name = some (a, p, m) ∧ bus.fault a = true) :
    (readReg db bus resp name).1 = 0xdeaddead ∧
    (∃ msg, (readReg db bus resp name).2.1.error = some msg ∧ msg ≠ "") ∧
    (writeReg db bus resp name value).1 = bus ∧
    (∃ msg, (writeReg db bus resp name value).2.1.error = some msg ∧ msg ≠ "") ∧
    (∀ a w, BusOp.write a w ∉ (writeReg db bus resp name value).2.2) := by
  rcases h with h | ⟨a, p, m, hl, hf⟩
  · refine ⟨?_, ⟨"Register not found", ?_, by decide⟩, ?_,
      ⟨"Register not found", ?_, by decide⟩, ?_⟩ <;>
      simp [readReg, writeReg, h, setError]
  · refine ⟨?_, ⟨"read memory error", ?_, by decide⟩, ?_,
      ⟨"read memory error", ?_, by decide⟩, ?_⟩ <;>
      simp [readReg, writeReg, hl, hf, setError]

/-- Witness for `read_failure_sentinel` on a faulting bus. -/
theorem read_failure_sentinel_witness :
    (lookupReg [("X", "1677721600|rw|240")] "X" = none ∨
      ∃ a p m, lookupReg [("X", "1677721600|rw|240")] "X" = some (a, p, m) ∧
        (Bus.mk (fun _ => 0) (fun _ => true)).fault a = true) ∧
    ((readReg [("X", "1677721600|rw|240")] (Bus.mk (fun _ => 0) (fun _ => true))
        (RPCMsg.mk none) "X").1 = 0xdeaddead ∧
    (∃ msg, (readReg [("X", "1677721600|rw|240")]
        (Bus.mk (fun _ => 0) (fun _ => true)) (RPCMsg.mk none) "X").2.1.error =
          some msg ∧ msg ≠ "") ∧
    (writeReg [("X", "1677721600|rw|240")] (Bus.mk (fun _ => 0) (fun _ => true))
        (RPCMsg.mk none) "X" 7).1 = Bus.mk (fun _ => 0) (fun _ => true) ∧
    (∃ msg, (writeReg [("X", "1677721600|rw|240")]
        (Bus.mk (fun _ => 0) (fun _ => true)) (RPCMsg.mk none) "X" 7).2.1.error =
          some msg ∧ msg ≠ "") ∧
    (∀ a w, BusOp.write a w ∉ (writeReg [("X", "1677721600|rw|240")]
        (Bus.mk (fun _ => 0) (fun _ => true)) (RPCMsg.mk none) "X" 7).2.2)) :=
  ⟨Or.inr ⟨1677721600, "rw", 240, by decide, rfl⟩,
    read_failure_sentinel [("X", "1677721600|rw|240")]
      (Bus.mk (fun _ => 0) (fun _ => true)) (RPCMsg.mk none) "X" 7
      (Or.inr ⟨1677721600, "rw", 240, by decide, rfl⟩)⟩

/-- The shift-until-odd extraction loop computes a right shift by the
position of the mask's lowest set bit. -/
theorem applyMaskAux_eq (fuel : Nat) :
    ∀ r m, m ≠ 0 → m < 2 ^ fuel →
      applyMaskAux fuel r m = r >>> lowestBitAux fuel m := by
  induction fuel with
  | zero =>
    intro r m h0 hlt
    exact absurd (Nat.lt_one_iff.mp (by simpa using hlt)) h0
  | succ f ih =>
    intro r m h0 hlt
    by_cases hm : m % 2 = 1
    · simp [applyMaskAux, lowestBitAux, hm]
    · have h2 : m / 2 ≠ 0 := by omega
      have hlt2 : m / 2 < 2 ^ f := by
        rw [Nat.pow_succ] at hlt
        omega
      simp only [applyMaskAux, lowestBitAux, if_neg hm]
      rw [ih (r / 2) (m / 2) h2 hlt2]
      rw [Nat.shiftRight_add r 1 (lowestBitAux f (m / 2))]
      rfl

/-- The lowest-set-bit loop really finds the least-significant set bit: the
bit at the returned position is set and every lower bit is clear. -/
theorem lowestBitAux_spec (fuel : Nat) :
    ∀ m, m ≠ 0 → m < 2 ^ fuel →
      m.testBit (lowestBitAux fuel m) = true ∧
        ∀ i < lowestBitAux fuel m, m.testBit i = false := by
  induction fuel with
  | zero =>
    intro m h0 hlt
    exact absurd (Nat.lt_one_iff.mp (by simpa using hlt)) h0
  | succ f ih =>
    intro m h0 hlt
    by_cases hm : m % 2 = 1
    · constructor
      · simp [lowestBitAux, hm, Nat.testBit_zero]
      · intro i hi
        simp [lowestBitAux, hm] at hi
    · have h2 : m / 2 ≠ 0 := by omega
      have hlt2 : m / 2 < 2 ^ f := by rw [Nat.pow_succ] at hlt; omega
      obtain ⟨ih1, ih2⟩ := ih (m / 2) h2 hlt2
      simp only [lowestBitAux, if_neg hm]
      constructor
      · rw [Nat.add_comm 1 _, Nat.testBit_add_one]
        exact ih1
      · intro i hi
        cases i with
        | zero => simp [Nat.testBit_zero, hm]
        | succ j =>
          rw [Nat.testBit_add_one]
          exact ih2 j (by omega)

/-- The lowest set bit of a block mask `(2^k - 1) <<< p` sits at `p`. -/
theorem lowestBitAux_shift (fuel : Nat) :
    ∀ p k, p < fuel → k ≠ 0 → lowestBitAux fuel ((2 ^ k - 1) <<< p) = p := by
  induction fuel with
  | zero => intro p k hp _; omega
  | succ f ih =>
    intro p k hp hk
    cases p with
    | zero =>
      have hodd : ((2 ^ k - 1) <<< 0) % 2 = 1 := by
        obtain ⟨k2, rfl⟩ : ∃ k2, k = k2 + 1 := ⟨k - 1, by omega⟩
        rw [Nat.shiftLeft_zero, Nat.pow_succ]
        have hpos : 0 < 2 ^ k2 := Nat.two_pow_pos k2
        omega
      simp [lowestBitAux, hodd]
      omega
    | succ p2 =>
      have h2 : ((2 ^ k - 1) <<< (p2 + 1)) = 2 * ((2 ^ k - 1) <<< p2) :=
        Nat.shiftLeft_succ _ _
      have hne : ¬(((2 ^ k - 1) <<< (p2 + 1)) % 2 = 1) := by omega
      have hdiv : ((2 ^ k - 1) <<< (p2 + 1)) / 2 = (2 ^ k - 1) <<< p2 := by omega
      simp only [lowestBitAux, if_neg hne, hdiv]
      rw [ih p2 k (by omega) hk]
      omega

/-- The fuelled set-bit count of zero is zero. -/
theorem popcountAux_zero (fuel : Nat) : popcountAux fuel 0 = 0 := by
  induction fuel with
  | zero => rfl
  | succ f ih => simp [popcountAux, ih]

/-- The set-bit count of a block mask `(2^k - 1) <<< p` is `k`. -/
theorem popcountAux_shift (fuel : Nat) :
    ∀ p k, p + k ≤ fuel → popcountAux fuel ((2 ^ k - 1) <<< p) = k := by
  induction fuel with
  | zero =>
    intro p k h
    have hp : p = 0 := by omega
    have hk : k = 0 := by omega
    subst hp
    subst hk
    rfl
  | succ f ih =>
    intro p k h
    cases p with
    | zero =>
      cases k with
      | zero =>
        have h0 : (2 ^ 0 - 1) <<< 0 = 0 := by decide
        rw [h0, popcountAux_zero]
      | succ k2 =>
        rw [Nat.shiftLeft_zero]
        have hpos : 0 < 2 ^ k2 := Nat.two_pow_pos k2
        have hmod : (2 ^ (k2 + 1) - 1) % 2 = 1 := by rw [Nat.pow_succ]; omega
        have hdiv : (2 ^ (k2 + 1) - 1) / 2 = 2 ^ k2 - 1 := by rw [Nat.pow_succ]; omega
        simp only [popcountAux, hmod, hdiv]
        have hsh : (2 ^ k2 - 1 : Nat) = (2 ^ k2 - 1) <<< 0 := Nat.shiftLeft_zero.symm
        rw [hsh, ih 0 k2 (by omega)]
        omega
    | succ p2 =>
      have h2 : ((2 ^ k - 1) <<< (p2 + 1)) = 2 * ((2 ^ k - 1) <<< p2) :=
        Nat.shiftLeft_succ _ _
      have hmod : ((2 ^ k - 1) <<< (p2 + 1)) % 2 = 0 := by omega
      have hdiv : ((2 ^ k - 1) <<< (p2 + 1)) / 2 = (2 ^ k - 1) <<< p2 := by omega
      simp only [popcountAux, hmod, hdiv]
      rw [ih p2 k (by omega)]
      omega

/-- Bit `i` of the 32-bit complement: set exactly at the in-range positions
where the mask is clear. -/
theorem testBit_maskNot (m i : Nat) :
    (maskNot m).testBit i = (decide (i < 32) && !((m % 2 ^ 32).testBit i)) := by
  unfold maskNot
  rw [Nat.testBit_xor, Nat.testBit_two_pow_sub_one]
  by_cases h : i < 32
  · have hC : decide (i < 32) = true := by simp [h]
    rw [hC]
    cases hB : (m % 2 ^ 32).testBit i <;> rfl
  · have hC : decide (i < 32) = false := by simp [h]
    have hb : (m % 2 ^ 32).testBit i = false := by
      apply Nat.testBit_lt_two_pow
      calc m % 2 ^ 32 < 2 ^ 32 := Nat.mod_lt _ (by norm_num)
        _ ≤ 2 ^ i := Nat.pow_le_pow_right (by norm_num) (by omega)
    rw [hC, hb]
    rfl

/-- The inserted word is again a 32-bit word. -/
theorem insertMask_lt (w m v : Nat) : insertMask w m v < 2 ^ 32 := by
  unfold insertMask
  exact Nat.or_lt_two_pow
    (Nat.lt_of_le_of_lt Nat.and_le_left (Nat.mod_lt _ (by norm_num)))
    (Nat.lt_of_le_of_lt Nat.and_le_right (Nat.mod_lt _ (by norm_num)))

/-- Write-insertion never changes a bit outside the mask. -/
theorem insertMask_frame (w m v : Nat) :
    insertMask w m v &&& maskNot m = w % 2 ^ 32 &&& maskNot m := by
  apply Nat.eq_of_testBit_eq
  intro i
  simp only [insertMask, Nat.testBit_or, Nat.testBit_and, testBit_maskNot]
  cases hA : (w % 2 ^ 32).testBit i <;>
    cases hB : (m % 2 ^ 32).testBit i <;>
      cases hC : decide (i < 32) <;>
        cases hD : (v <<< lowestBit m).testBit i <;> rfl

/-- Inside the mask, the inserted word carries exactly the shifted value. -/
theorem insertMask_and_mask (w m v : Nat) :
    insertMask w m v &&& m % 2 ^ 32 = (v <<< lowestBit m) &&& m % 2 ^ 32 := by
  apply Nat.eq_of_testBit_eq
  intro i
  simp only [insertMask, Nat.testBit_or, Nat.testBit_and, testBit_maskNot]
  cases hA : (w % 2 ^ 32).testBit i <;>
    cases hB : (m % 2 ^ 32).testBit i <;>
      cases hC : decide (i < 32) <;>
        cases hD : (v <<< lowestBit m).testBit i <;> rfl

/-- Write-insertion through one mask is invisible through any disjoint
32-bit mask. -/
theorem insertMask_disjoint (w m v m2 : Nat) (hd : m % 2 ^ 32 &&& m2 = 0)
    (h2 : m2 < 2 ^ 32) :
    insertMask w m v &&& m2 = w % 2 ^ 32 &&& m2 := by
  apply Nat.eq_of_testBit_eq
  intro i
  by_cases hb2 : m2.testBit i = true
  · have h32 : i < 32 := by
      by_contra hh
      have hb : m2.testBit i = false :=
        Nat.testBit_lt_two_pow
          (lt_of_lt_of_le h2 (Nat.pow_le_pow_right (by norm_num) (by omega)))
      rw [hb] at hb2
      exact Bool.noConfusion hb2
    have hC : decide (i < 32) = true := by simp [h32]
    have hm : (m % 2 ^ 32).testBit i = false := by
      cases hcase : (m % 2 ^ 32).testBit i
      · rfl
      · have hcontr := congrArg (fun x => x.testBit i) hd
        simp only [Nat.testBit_and, Nat.zero_testBit, hcase, hb2, Bool.true_and] at hcontr
        exact Bool.noConfusion hcontr
    simp only [insertMask, Nat.testBit_or, Nat.testBit_and, testBit_maskNot, hm, hb2, hC]
    cases hA : (w % 2 ^ 32).testBit i <;>
      cases hD : (v <<< lowestBit m).testBit i <;> rfl
  · rw [Bool.not_eq_true] at hb2
    simp only [insertMask, Nat.testBit_or, Nat.testBit_and, hb2, Bool.and_false]

/-- Conjunction distributes over a common left shift. -/
theorem and_shiftLeft_distrib (a b p : Nat) :
    (a <<< p) &&& (b <<< p) = (a &&& b) <<< p := by
  apply Nat.eq_of_testBit_eq
  intro i
  simp only [Nat.testBit_and, Nat.testBit_shiftLeft]
  by_cases h : p ≤ i
  · simp [h]
  · simp [h]

/-- A left shift followed by the same right shift is the identity. -/
theorem shiftLeft_shiftRight_cancel (x p : Nat) : (x <<< p) >>> p = x := by
  rw [Nat.shiftLeft_eq, Nat.shiftRight_eq_div_pow]
  exact Nat.mul_div_cancel x (Nat.two_pow_pos p)

/-- A block mask with at least one bit is non-zero. -/
theorem contiguous_ne_zero (p k : Nat) (hk : 0 < k) : (2 ^ k - 1) <<< p ≠ 0 := by
  rw [Nat.shiftLeft_eq]
  have h1 : 0 < 2 ^ k - 1 := by
    have h2 : (2 : Nat) ≤ 2 ^ k := by
      calc (2 : Nat) = 2 ^ 1 := rfl
        _ ≤ 2 ^ k := Nat.pow_le_pow_right (by norm_num) hk
    omega
  exact Nat.pos_iff_ne_zero.mp (Nat.mul_pos h1 (Nat.two_pow_pos p))

/-- A block mask of `k` bits starting at `p` with `p + k ≤ 32` is a 32-bit
word. -/
theorem contiguous_lt (p k : Nat) (h : p + k ≤ 32) :
    (2 ^ k - 1) <<< p < 2 ^ 32 := by
  rw [Nat.shiftLeft_eq]
  have h1 : 0 < 2 ^ k := Nat.two_pow_pos k
  calc (2 ^ k - 1) * 2 ^ p < 2 ^ k * 2 ^ p :=
        (Nat.mul_lt_mul_right (Nat.two_pow_pos p)).mpr (by omega)
    _ = 2 ^ (k + p) := by rw [← Nat.pow_add]
    _ ≤ 2 ^ 32 := Nat.pow_le_pow_right (by norm_num) (by omega)

/-- C1 counterexample: for the sparse mask `0b101`, writing value `3`
through the mask and reading it back yields `1`, not
`3 mod 2^popcount(0b101) = 3`: the claimed round-trip identity fails for a
non-contiguous mask, because insertion and extraction align on the lowest
set bit only and the value's bit 1 lands on the mask's cleared bit. -/
theorem mask_roundtrip_counterexample :
    applyMask (insertMask 0 5 3) 5 ≠ 3 % 2 ^ getNumNonzeroBits 5 := by decide

/-- C1 (amended): the mask round-trip with truncation holds for every
contiguous mask: for every 32-bit word `w`, every value `v`, and every block
mask `(2^k - 1) <<< p` of `k ≥ 1` bits starting at bit `p` with
`p + k ≤ 32`, extracting after inserting yields `v mod 2^popcount(mask)` —
a value wider than the mask's bit count is silently truncated to the mask's
width rather than rejected. -/
theorem mask_roundtrip_contiguous (w v p k : Nat) (hk : 0 < k)
    (hpk : p + k ≤ 32) :
    applyMask (insertMask w ((2 ^ k - 1) <<< p) v) ((2 ^ k - 1) <<< p) =
      v % 2 ^ getNumNonzeroBits ((2 ^ k - 1) <<< p) := by
  have hmlt : (2 ^ k - 1) <<< p < 2 ^ 32 := contiguous_lt p k hpk
  have hmne : (2 ^ k - 1) <<< p ≠ 0 := contiguous_ne_zero p k hk
  have hmod : ((2 ^ k - 1) <<< p) % 2 ^ 32 = (2 ^ k - 1) <<< p :=
    Nat.mod_eq_of_lt hmlt
  have hpop : getNumNonzeroBits ((2 ^ k - 1) <<< p) = k := by
    unfold getNumNonzeroBits
    rw [hmod]
    exact popcountAux_shift 32 p k hpk
  have hlow : lowestBit ((2 ^ k - 1) <<< p) = p := by
    unfold lowestBit
    rw [hmod]
    exact lowestBitAux_shift 32 p k (by omega) hk.ne'
  have hlow2 : lowestBitAux 32 ((2 ^ k - 1) <<< p) = p := by
    have h := hlow
    unfold lowestBit at h
    rw [hmod] at h
    exact h
  have hins : insertMask w ((2 ^ k - 1) <<< p) v % 2 ^ 32 =
      insertMask w ((2 ^ k - 1) <<< p) v := Nat.mod_eq_of_lt (insertMask_lt _ _ _)
  unfold applyMask
  rw [hmod, hins, applyMaskAux_eq 32 _ _ hmne hmlt, hlow2]
  have h1 := insertMask_and_mask w ((2 ^ k - 1) <<< p) v
  rw [hmod, hlow] at h1
  rw [h1, and_shiftLeft_distrib, shiftLeft_shiftRight_cancel,
    Nat.and_pow_two_sub_one_eq_mod, hpop]

/-- Witness for `mask_roundtrip_contiguous`: mask `0xF0` (`k = 4`, `p = 4`)
and the over-wide value `0x13`. -/
theorem mask_roundtrip_contiguous_witness :
    0 < 4 ∧ 4 + 4 ≤ 32 ∧
      applyMask (insertMask 0x12345678 ((2 ^ 4 - 1) <<< 4) 0x13)
          ((2 ^ 4 - 1) <<< 4) =
        0x13 % 2 ^ getNumNonzeroBits ((2 ^ 4 - 1) <<< 4) :=
  ⟨by decide, by decide,
    mask_roundtrip_contiguous 0x12345678 0x13 4 4 (by decide) (by decide)⟩

/-- C2: `writeReg` is a read-modify-write that leaves every bit outside the
register's mask unchanged: after a resolved, fault-free `writeReg`, the bits
of the raw word not selected by the mask equal their previous values, any
disjoint 32-bit mask reads the same bits as before, other addresses are
untouched, and concretely inserting `0x3` through mask `0xF0` into
`0x12345678` gives `0x12345638`. -/
theorem writeReg_frame (db : List (String × String)) (bus : Bus)
    (resp : RPCMsg) (name : String) (value a : Nat) (perm : String)
    (mask : Nat) (hl : lookupReg db name = some (a, perm, mask))
    (hf : bus.fault a = false) :
    ((writeReg db bus resp name value).1.mem a &&& maskNot mask =
      bus.mem a % 2 ^ 32 &&& maskNot mask) ∧
    (∀ m2, m2 < 2 ^ 32 → mask &&& m2 = 0 →
      (writeReg db bus resp name value).1.mem a &&& m2 =
        bus.mem a % 2 ^ 32 &&& m2) ∧
    (∀ x, x ≠ a → (writeReg db bus resp name value).1.mem x = bus.mem x) ∧
    insertMask 0x12345678 0xF0 0x3 = 0x12345638 := by
  have hmask : mask < 2 ^ 32 := (lookupReg_bounds db name a perm mask hl).2
  have hmem : (writeReg db bus resp name value).1.mem a =
      insertMask (bus.mem a) mask value := by
    simp [writeReg, hl, hf]
  refine ⟨?_, ?_, ?_, by decide⟩
  · rw [hmem]
    exact insertMask_frame _ _ _
  · intro m2 h2 hd
    rw [hmem]
    apply insertMask_disjoint
    · rw [Nat.mod_eq_of_lt hmask]
      exact hd
    · exact h2
  · intro x hx
    simp [writeReg, hl, hf, hx]

/-- Witness for `writeReg_frame` on the spec's scenario record, starting
from raw word `0x12345678`. -/
theorem writeReg_frame_witness :
    lookupReg [("X", "1677721600|rw|240")] "X" = some (1677721600, "rw", 240) ∧
    (Bus.mk (fun _ => 0x12345678) (fun _ => false)).fault 1677721600 = false ∧
    (((writeReg [("X", "1677721600|rw|240")]
        (Bus.mk (fun _ => 0x12345678) (fun _ => false)) (RPCMsg.mk none)
        "X" 3).1.mem 1677721600 &&& maskNot 240 =
      (Bus.mk (fun _ => 0x12345678) (fun _ => false)).mem 1677721600 % 2 ^ 32 &&&
        maskNot 240) ∧
    (∀ m2, m2 < 2 ^ 32 → 240 &&& m2 = 0 →
      (writeReg [("X", "1677721600|rw|240")]
          (Bus.mk (fun _ => 0x12345678) (fun _ => false)) (RPCMsg.mk none)
          "X" 3).1.mem 1677721600 &&& m2 =
        (Bus.mk (fun _ => 0x12345678) (fun _ => false)).mem 1677721600 % 2 ^ 32 &&&
          m2) ∧
    (∀ x, x ≠ 1677721600 →
      (writeReg [("X", "1677721600|rw|240")]
          (Bus.mk (fun _ => 0x12345678) (fun _ => false)) (RPCMsg.mk none)
          "X" 3).1.mem x =
        (Bus.mk (fun _ => 0x12345678) (fun _ => false)).mem x) ∧
    insertMask 0x12345678 0xF0 0x3 = 0x12345638) :=
  ⟨by decide, rfl,
    writeReg_frame [("X", "1677721600|rw|240")]
      (Bus.mk (fun _ => 0x12345678) (fun _ => false)) (RPCMsg.mk none)
      "X" 3 1677721600 "rw" 240 (by decide) rfl⟩

/-- C3: `applyMask` extracts and right-justifies the masked bits: for every
32-bit word and every non-zero 32-bit mask, the result is
`(word & mask) >> p` where `p` is the position of the mask's
least-significant set bit (the bit at `p` is set and all lower mask bits are
clear); consequently `readReg` of the record `"0x64000000|rw|0x000000F0"`
returns `0xA` when the raw word at its address is `0x000000A0`. -/
theorem applyMask_extracts (word mask : Nat) (hw : word < 2 ^ 32)
    (hm : mask < 2 ^ 32) (hne : mask ≠ 0) :
    applyMask word mask = (word &&& mask) >>> lowestBit mask ∧
    mask.testBit (lowestBit mask) = true ∧
    (∀ i < lowestBit mask, mask.testBit i = false) ∧
    (readReg [("X", "1677721600|rw|240")]
      (Bus.mk (fun x => if x = 1677721600 then 0xA0 else 0) (fun _ => false))
      (RPCMsg.mk none) "X").1 = 0xA := by
  have hmod : mask % 2 ^ 32 = mask := Nat.mod_eq_of_lt hm
  have hwod : word % 2 ^ 32 = word := Nat.mod_eq_of_lt hw
  obtain ⟨hs1, hs2⟩ := lowestBitAux_spec 32 mask hne hm
  refine ⟨?_, ?_, ?_, by decide⟩
  · unfold applyMask lowestBit
    rw [hmod, hwod]
    exact applyMaskAux_eq 32 (word &&& mask) mask hne hm
  · unfold lowestBit
    rw [hmod]
    exact hs1
  · unfold lowestBit
    rw [hmod]
    exact hs2

/-- Witness for `applyMask_extracts` at word `0xA0`, mask `0xF0`. -/
theorem applyMask_extracts_witness :
    (0xA0 : Nat) < 2 ^ 32 ∧ (0xF0 : Nat) < 2 ^ 32 ∧ (0xF0 : Nat) ≠ 0 ∧
      (applyMask 0xA0 0xF0 = (0xA0 &&& 0xF0) >>> lowestBit 0xF0 ∧
      Nat.testBit 0xF0 (lowestBit 0xF0) = true ∧
      (∀ i < lowestBit 0xF0, Nat.testBit 0xF0 i = false) ∧
      (readReg [("X", "1677721600|rw|240")]
        (Bus.mk (fun x => if x = 1677721600 then 0xA0 else 0) (fun _ => false))
        (RPCMsg.mk none) "X").1 = 0xA) :=
  ⟨by decide, by decide, by decide,
    applyMask_extracts 0xA0 0xF0 (by decide) (by decide) (by decide)⟩
